import Mathlib

/-!
Verification of the tfcycle repository: a tool that parses Terraform
"Error: Cycle:" diagnostics into structured nodes, heuristically
reconstructs a dependency graph over the node set, extracts and
deduplicates cycles, and generates remediation suggestions.

The embedding below translates the Go source (analyzer.go and the
parser/model files) into executable Lean definitions.  Strings are
modelled as lists of characters; Go's regexp uses RE2 leftmost-first
matching, which is hand-compiled here into deterministic scanners
(all the character classes involved are disjoint from the literals
that follow them, so the greedy submatches are exactly the maximal
runs).  Go maps used as string-keyed adjacency lists are modelled as
total functions defaulting to the empty list, matching Go's nil-slice
lookup on a missing key.
-/

/-- Strings are modelled as lists of characters. -/
abbrev Str := List Char

/-- RE2's Perl class from the patterns: matches space, tab,
newline, form feed and carriage return. -/
def goIsSpace (c : Char) : Bool :=
  c = ' ' || c = '\t' || c = '\n' || c = '\x0c' || c = '\r'

/-- ASCII fragment of Go's unicode.IsSpace, used by strings.TrimSpace. -/
def goIsUnicodeSpace (c : Char) : Bool :=
  c = ' ' || c = '\t' || c = '\n' || c = '\x0b' || c = '\x0c' || c = '\r'

/-- strings.TrimSpace: drop whitespace from both ends. -/
def trimSpace (s : Str) : Str :=
  ((s.dropWhile goIsUnicodeSpace).reverse.dropWhile goIsUnicodeSpace).reverse

/-- Character class of the resource and module name patterns. -/
def isWordChar (c : Char) : Bool :=
  ('a' ≤ c && c ≤ 'z') || ('A' ≤ c && c ≤ 'Z') || ('0' ≤ c && c ≤ '9') || c = '_' || c = '-'

/-- Character class of the deposed-id pattern. -/
def isHexChar (c : Char) : Bool :=
  ('a' ≤ c && c ≤ 'f') || ('0' ≤ c && c ≤ '9')

/-- strings.HasPrefix, written take/compare to match Go semantics. -/
def hasLead (pre s : Str) : Bool :=
  s.take pre.length == pre

/-- strings.TrimPrefix: drop the leading part when present, else unchanged. -/
def trimLead (pre s : Str) : Str :=
  if hasLead pre s then s.drop pre.length else s

/-- Go byte-wise string comparison (for UTF-8, byte order equals
code-point order, which is the order on Char). -/
def strLt : Str → Str → Bool
  | [], [] => false
  | [], _ :: _ => true
  | _ :: _, [] => false
  | a :: as, b :: bs => if a < b then true else if b < a then false else strLt as bs

/-- The lifecycle action enumeration from the node model. -/
inductive NodeAction where
  | normal
  | expand
  | destroy
  | close
  | destroyDeposed
deriving DecidableEq, Repr

/-- The CycleNode record from the node model.  The annotation map is an
association list (only the key "deposed_id" is ever written). -/
structure CycleNode where
  resourceType : Str
  resourceName : Str
  modulePath : List Str
  instanceKey : Str
  action : NodeAction
  annotations : List (Str × Str)
  rawString : Str
deriving DecidableEq, Repr

/-- CycleNode.FullName: module path segments joined with dots, then
type.name, then an optional bracketed instance key. -/
def FullName (n : CycleNode) : Str :=
  let parts := n.modulePath ++ [n.resourceType ++ '.' :: n.resourceName]
  let result := List.intercalate ['.'] parts
  if n.instanceKey.isEmpty then result else result ++ '[' :: n.instanceKey ++ [']']

/-- The TfCycle record: parsed nodes, the raw error text and the
cached cycle list. -/
structure TfCycle where
  nodes : List CycleNode
  rawError : Str
  cycles : List (List Str)
deriving DecidableEq, Repr

/-- TfCycle.GetNodeByName: first node whose full name equals the query. -/
def GetNodeByName (tc : TfCycle) (name : Str) : Option CycleNode :=
  tc.nodes.find? (fun n => FullName n == name)

/-!
The extractor.  The compiled patterns of the Go parser are hand-compiled
RE2 scanners.  In each pattern every quantified class is disjoint from the
literal that follows it, so a greedy quantifier always consumes exactly the
maximal run, except for the final dot-plus of the cycle pattern, where the
preceding whitespace-star gives one character back when the rest of the
text would otherwise be empty.
-/

/-- Anchored attempt of the cycle pattern (Error, colon, optional
whitespace, Cycle, colon, optional whitespace, then a non-empty rest);
returns the final capture group. -/
def matchCycleAt (s : Str) : Option Str :=
  if s.take 6 = "Error:".data then
    let s1 := (s.drop 6).dropWhile goIsSpace
    if s1.take 6 = "Cycle:".data then
      let s2 := s1.drop 6
      let r := s2.dropWhile goIsSpace
      if r.isEmpty then
        match (s2.takeWhile goIsSpace).getLast? with
        | some c => some [c]
        | none => none
      else some r
    else none
  else none

/-- Leftmost match of the cycle pattern over the raw text. -/
def findCycleCapture : Str → Option Str
  | [] => none
  | c :: rest =>
    match matchCycleAt (c :: rest) with
    | some r => some r
    | none => findCycleCapture rest

/-- The depth-counting scan of splitResources: accumulate characters,
splitting on commas only when the bracket and parenthesis depths are
both zero. -/
def splitLoop : Str → List Str → Str → Int → Int → List Str
  | [], acc, cur, _, _ => if cur.length > 0 then acc ++ [cur] else acc
  | c :: rest, acc, cur, b, p =>
    if c = '[' then splitLoop rest acc (cur ++ [c]) (b + 1) p
    else if c = ']' then splitLoop rest acc (cur ++ [c]) (b - 1) p
    else if c = '(' then splitLoop rest acc (cur ++ [c]) b (p + 1)
    else if c = ')' then splitLoop rest acc (cur ++ [c]) b (p - 1)
    else if c = ',' then
      if b = 0 && p = 0 then
        if cur.length > 0 then splitLoop rest (acc ++ [cur]) [] b p
        else splitLoop rest acc cur b p
      else splitLoop rest acc (cur ++ [c]) b p
    else splitLoop rest acc (cur ++ [c]) b p

/-- splitResources: replace newlines and tabs by spaces, run the
depth-counting scan, then keep the trimmed non-empty segments. -/
def splitResources (cycleText : Str) : List Str :=
  let t := cycleText.map fun c => if c = '\n' then ' ' else c
  let t := t.map fun c => if c = '\t' then ' ' else c
  let resources := splitLoop t [] [] 0 0
  (resources.map trimSpace).filter (fun s => ¬ s.isEmpty)

/-- Anchored attempt of the action alternation inside parentheses;
returns the capture group and the rest after the closing parenthesis.
The alternatives are tried in the pattern's order. -/
def actionAlt (inner : Str) : Option (Str × Str) :=
  if inner.take 7 = "expand)".data then some ("expand".data, inner.drop 7)
  else if inner.take 8 = "destroy)".data then some ("destroy".data, inner.drop 8)
  else if inner.take 6 = "close)".data then some ("close".data, inner.drop 6)
  else if inner.take 7 = "destroy".data then
    let r1 := inner.drop 7
    let w1 := r1.takeWhile goIsSpace
    let r2 := r1.dropWhile goIsSpace
    if ¬ w1.isEmpty && r2.take 7 = "deposed".data then
      let r3 := r2.drop 7
      let w2 := r3.takeWhile goIsSpace
      let r4 := r3.dropWhile goIsSpace
      let hex := r4.takeWhile isHexChar
      let r5 := r4.dropWhile isHexChar
      if ¬ w2.isEmpty && ¬ hex.isEmpty then
        match r5 with
        | ')' :: rest => some ("destroy".data ++ w1 ++ "deposed".data ++ w2 ++ hex, rest)
        | _ => none
      else none
    else none
  else none

/-- Anchored attempt of the action pattern: optional whitespace, an open
parenthesis, the alternation, a close parenthesis. -/
def actionMatchAt (s : Str) : Option (Str × Str) :=
  let s1 := s.dropWhile goIsSpace
  match s1 with
  | '(' :: inner => actionAlt inner
  | _ => none

/-- Leftmost match of the action pattern: the capture group. -/
def actionFind : Str → Option Str
  | [] => none
  | c :: rest =>
    match actionMatchAt (c :: rest) with
    | some (g, _) => some g
    | none => actionFind rest

/-- Replace every match of the action pattern by the empty string.
The fuel argument starts at the length of the text; a match always
consumes at least one character, so the fuel never runs out. -/
def actionReplaceAux : Nat → Str → Str
  | 0, s => s
  | _ + 1, [] => []
  | fuel + 1, c :: rest =>
    match actionMatchAt (c :: rest) with
    | some (_, after) => actionReplaceAux fuel after
    | none => c :: actionReplaceAux fuel rest

/-- ReplaceAllString of the action pattern with the empty string. -/
def actionReplaceAll (s : Str) : Str :=
  actionReplaceAux s.length s

/-- Anchored attempt of the deposed pattern (destroy, whitespace,
deposed, whitespace, hex run); returns the hex capture. -/
def deposedMatchAt (s : Str) : Option Str :=
  if s.take 7 = "destroy".data then
    let r1 := s.drop 7
    let w1 := r1.takeWhile goIsSpace
    let r2 := r1.dropWhile goIsSpace
    if ¬ w1.isEmpty && r2.take 7 = "deposed".data then
      let r3 := r2.drop 7
      let w2 := r3.takeWhile goIsSpace
      let r4 := r3.dropWhile goIsSpace
      let hex := r4.takeWhile isHexChar
      if ¬ w2.isEmpty && ¬ hex.isEmpty then some hex else none
    else none
  else none

/-- Leftmost match of the deposed pattern. -/
def deposedFind : Str → Option Str
  | [] => none
  | c :: rest =>
    match deposedMatchAt (c :: rest) with
    | some g => some g
    | none => deposedFind rest

/-- Anchored attempt of the instance-key pattern: an open bracket, a
non-empty run of non-bracket characters, a close bracket.  Returns the
capture and the rest after the match. -/
def instanceMatchAt (s : Str) : Option (Str × Str) :=
  match s with
  | '[' :: rest =>
    let content := rest.takeWhile (fun c => c ≠ ']')
    let r := rest.dropWhile (fun c => c ≠ ']')
    if content.isEmpty then none
    else
      match r with
      | ']' :: after => some (content, after)
      | _ => none
  | _ => none

/-- Leftmost match of the instance-key pattern: the capture group. -/
def instanceFind : Str → Option Str
  | [] => none
  | c :: rest =>
    match instanceMatchAt (c :: rest) with
    | some (g, _) => some g
    | none => instanceFind rest

/-- Replace every match of the instance-key pattern by the empty string. -/
def instanceReplaceAux : Nat → Str → Str
  | 0, s => s
  | _ + 1, [] => []
  | fuel + 1, c :: rest =>
    match instanceMatchAt (c :: rest) with
    | some (_, after) => instanceReplaceAux fuel after
    | none => c :: instanceReplaceAux fuel rest

/-- ReplaceAllString of the instance-key pattern with the empty string. -/
def instanceReplaceAll (s : Str) : Str :=
  instanceReplaceAux s.length s

/-- strings.Trim with a double-quote cutset: drop quotes from both ends. -/
def trimQuotes (s : Str) : Str :=
  ((s.dropWhile (fun c => c = '"')).reverse.dropWhile (fun c => c = '"')).reverse

/-- One repetition of the module pattern group: the literal module, a
dot, a word run, a dot.  Returns the matched text and the rest. -/
def moduleGroupAt (s : Str) : Option (Str × Str) :=
  if s.take 7 = "module.".data then
    let r := s.drop 7
    let w := r.takeWhile isWordChar
    let r2 := r.dropWhile isWordChar
    if w.isEmpty then none
    else
      match r2 with
      | '.' :: rest => some ("module.".data ++ w ++ ['.'], rest)
      | _ => none
  else none

/-- The greedy star over module groups, anchored at the start; each
group consumes at least one character so the length fuel suffices. -/
def moduleCaptureAux : Nat → Str → Str
  | 0, _ => []
  | fuel + 1, s =>
    match moduleGroupAt s with
    | some (g, rest) => g ++ moduleCaptureAux fuel rest
    | none => []

/-- Group one of the anchored module pattern (possibly empty). -/
def moduleCapture (s : Str) : Str :=
  moduleCaptureAux s.length s

/-- strings.TrimSuffix with a dot suffix. -/
def trimSuffixDot (s : Str) : Str :=
  if s.getLast? = some '.' then s.dropLast else s

/-- First stripping stage of parseResource: the lifecycle-action
annotation.  Returns the action, the annotation list and the cleaned
string (every action match removed). -/
def stripAction (resourceStr : Str) : NodeAction × List (Str × Str) × Str :=
  match actionFind resourceStr with
  | none => (NodeAction.normal, [], resourceStr)
  | some g =>
    let actionStr := trimSpace g
    let clean := actionReplaceAll resourceStr
    if actionStr = "expand".data then (NodeAction.expand, [], clean)
    else if actionStr = "close".data then (NodeAction.close, [], clean)
    else if actionStr = "destroy".data then (NodeAction.destroy, [], clean)
    else if hasLead "destroy deposed".data actionStr then
      match deposedFind actionStr with
      | some hex => (NodeAction.destroyDeposed, [("deposed_id".data, hex)], clean)
      | none => (NodeAction.destroyDeposed, [], clean)
    else (NodeAction.normal, [], clean)

/-- Second stripping stage of parseResource: the instance-key bracket
suffix.  Returns the unquoted key and the cleaned string. -/
def stripInstance (cleanStr : Str) : Str × Str :=
  match instanceFind cleanStr with
  | some content => (trimQuotes content, instanceReplaceAll cleanStr)
  | none => ([], cleanStr)

/-- Third stripping stage of parseResource: the leading module path.
Returns the path segments and the cleaned string. -/
def stripModule (cleanStr : Str) : List Str × Str :=
  let mp := moduleCapture cleanStr
  if mp.isEmpty then ([], cleanStr)
  else
    let modulePath := trimSuffixDot mp
    let path := if modulePath.isEmpty then [] else modulePath.splitOn '.'
    (path, trimLead mp cleanStr)

/-- Anchored attempt of the resource pattern: a word run, a dot, a word
run; returns the two captures. -/
def resourceMatchAt (s : Str) : Option (Str × Str) :=
  let t := s.takeWhile isWordChar
  let r := s.dropWhile isWordChar
  if t.isEmpty then none
  else
    match r with
    | '.' :: r2 =>
      let n := r2.takeWhile isWordChar
      if n.isEmpty then none else some (t, n)
    | _ => none

/-- Leftmost match of the resource pattern. -/
def resourceFind : Str → Option (Str × Str)
  | [] => none
  | c :: rest =>
    match resourceMatchAt (c :: rest) with
    | some g => some g
    | none => resourceFind rest

/-- The remainder of a segment after the three stripping stages. -/
def strippedRemainder (resourceStr : Str) : Str :=
  (stripModule (stripInstance (stripAction resourceStr).2.2).2).2

/-- parseResource: strip the action annotation, the instance key and
the module path, then require a resource-pattern match in the
remainder. -/
def parseResource (resourceStr : Str) : Option CycleNode :=
  let a := stripAction resourceStr
  let i := stripInstance a.2.2
  let m := stripModule i.2
  match resourceFind m.2 with
  | none => none
  | some (t, n) =>
    some { resourceType := t, resourceName := n, modulePath := m.1,
           instanceKey := i.1, action := a.1, annotations := a.2.1,
           rawString := resourceStr }

/-- The per-segment loop of ParseError: parse each trimmed segment,
appending the successes and skipping the failures. -/
def collectNodes (segs : List Str) : List CycleNode :=
  segs.foldl
    (fun acc s =>
      match parseResource (trimSpace s) with
      | some node => acc ++ [node]
      | none => acc)
    []

/-- ParseError: locate the cycle capture, split it into segments, parse
each segment, and fail when the marker is missing or no node survived. -/
def ParseError (errorText : Str) : Option TfCycle :=
  match findCycleCapture errorText with
  | none => none
  | some cycleText =>
    let nodes := collectNodes (splitResources cycleText)
    if nodes.isEmpty then none
    else some { nodes := nodes, rawError := errorText, cycles := [] }

/-!
The analyzer.  The Go adjacency map from full names to neighbour slices
is modelled as a total function defaulting to the empty list; map
iteration appears only in allNodesHaveConnections, whose result does not
depend on iteration order.  The unbounded Go recursion of the cycle
search is modelled with a fuel argument; the search only ever recurses
into unvisited nodes, so a fuel one above the node count never runs out.
-/

/-- A heuristic adjacency relation over full names. -/
def Graph := Str → List Str

/-- Append one directed edge to the adjacency of its source. -/
def addEdge (g : Graph) (src dst : Str) : Graph :=
  fun k => if k = src then g src ++ [dst] else g k

/-- shareModulePath: the two paths agree on every index below the
shorter length, which must be positive. -/
def shareModulePath (pathA pathB : List Str) : Bool :=
  let minLen := min pathA.length pathB.length
  if minLen = 0 then false
  else (List.range minLen).all (fun i => pathA.getD i [] == pathB.getD i [])

/-- likelyDependency: the ordered heuristic predicates of the analyzer. -/
def likelyDependency (a b : CycleNode) : Bool :=
  if a.resourceType = "aws_security_group".data ∧ b.resourceType = "aws_security_group".data then
    true
  else if a.resourceType = "aws_instance".data ∧ b.resourceType = "aws_security_group".data then
    true
  else if a.resourceType = "aws_security_group".data ∧ b.resourceType = "aws_instance".data then
    true
  else if hasLead "aws_iam".data a.resourceType ∧ hasLead "aws_iam".data b.resourceType then
    true
  else if a.modulePath.length > 0 ∧ b.modulePath.length > 0 then
    shareModulePath a.modulePath b.modulePath
  else if a.action = NodeAction.destroy ∧ b.action ≠ NodeAction.destroy then
    true
  else false

/-- Inner pairwise loop of buildHypotheticalGraph: node a at index i
against every node b at index j, adding an edge when i and j differ and
the heuristic fires. -/
def innerPairs (a : CycleNode) (i : Nat) : Nat → List CycleNode → Graph → Graph
  | _, [], g => g
  | j, b :: rest, g =>
    innerPairs a i (j + 1) rest
      (if i = j then g
       else if likelyDependency a b then addEdge g (FullName a) (FullName b)
       else g)

/-- Outer pairwise loop of buildHypotheticalGraph. -/
def outerPairs (nodes : List CycleNode) : Nat → List CycleNode → Graph → Graph
  | _, [], g => g
  | i, a :: rest, g => outerPairs nodes (i + 1) rest (innerPairs a i 0 nodes g)

/-- The heuristic adjacency built from the pairwise predicate loop,
before the connectivity check and possible ring fallback. -/
def hypotheticalAdjacency (nodes : List CycleNode) : Graph :=
  outerPairs nodes 0 nodes (fun _ => [])

/-- allNodesHaveConnections: every key of the adjacency map (the full
names of the nodes) has a non-empty neighbour list. -/
def allNodesHaveConnections (g : Graph) (nodeNames : List Str) : Bool :=
  nodeNames.all (fun name => ¬ (g name).isEmpty)

/-- Assignment loop of buildSequentialFallback: node i points at node
i plus one modulo the count. -/
def seqFallbackAux (nodeNames : List Str) : Nat → List Str → Graph → Graph
  | _, [], g => g
  | i, name :: rest, g =>
    seqFallbackAux nodeNames (i + 1) rest
      (fun k => if k = name then [nodeNames.getD ((i + 1) % nodeNames.length) []] else g k)

/-- buildSequentialFallback: the deterministic ring over the nodes in
appearance order. -/
def buildSequentialFallback (nodeNames : List Str) : Graph :=
  seqFallbackAux nodeNames 0 nodeNames (fun _ => [])

/-- buildHypotheticalGraph: keep the heuristic adjacency when every
node has an outgoing edge, otherwise substitute the ring fallback. -/
def buildHypotheticalGraph (nodes : List CycleNode) (nodeNames : List Str) : Graph :=
  let graph := hypotheticalAdjacency nodes
  if allNodesHaveConnections graph nodeNames then graph
  else buildSequentialFallback nodeNames

/-- The mutable state of the depth-first search: the visited set, the
recursion stack and the accumulated cycles. -/
structure DfsState where
  visited : List Str
  recStack : List Str
  cycles : List (List Str)
deriving Repr

/-- The neighbour loop of the search, parameterized by the recursive
visit: an unvisited neighbour is visited (propagating an early true
return); a neighbour on the recursion stack emits the sub-path from its
first occurrence and returns true; any other neighbour is skipped. -/
def neighborLoop (visit : Str → DfsState → DfsState × Bool) (path : List Str) :
    List Str → DfsState → DfsState × Bool
  | [], st => (st, false)
  | nb :: rest, st =>
    if st.visited.contains nb then
      if st.recStack.contains nb then
        match path.findIdx? (fun x => x == nb) with
        | some i => ({ st with cycles := st.cycles ++ [path.drop i] }, true)
        | none => (st, true)
      else neighborLoop visit path rest st
    else
      let r := visit nb st
      if r.2 then (r.1, true) else neighborLoop visit path rest r.1

/-- One recursive call of the search: mark the node visited and on the
stack, extend the path, run the neighbour loop, and pop the stack on a
false return. -/
def dfsVisit (g : Graph) : Nat → Str → List Str → DfsState → DfsState × Bool
  | 0, _, _, st => (st, false)
  | fuel + 1, node, path, st =>
    let st1 : DfsState :=
      { st with visited := node :: st.visited, recStack := node :: st.recStack }
    let path1 := path ++ [node]
    let r := neighborLoop (fun nb st' => dfsVisit g fuel nb path1 st') path1 (g node) st1
    if r.2 then r
    else ({ r.1 with recStack := r.1.recStack.erase node }, false)

/-- normalizeCycle's minimum-index loop: the first index holding the
lexicographically smallest identity. -/
def minIndexAux (cycle : List Str) : Nat → List Str → Nat → Nat
  | _, [], mi => mi
  | i, node :: rest, mi =>
    minIndexAux cycle (i + 1) rest (if strLt node (cycle.getD mi []) then i else mi)

/-- normalizeCycle: rotate the cycle so it begins at the first
occurrence of its lexicographically smallest identity. -/
def normalizeCycle (cycle : List Str) : List Str :=
  if cycle.isEmpty then cycle
  else
    let minIndex := minIndexAux cycle 0 cycle 0
    (List.range cycle.length).map
      (fun i => cycle.getD ((minIndex + i) % cycle.length) [])

/-- The loop of deduplicateCycles: drop cycles shorter than two,
canonicalize the rest and keep the first cycle of each canonical key. -/
def dedupAux : List (List Str) → List Str → List (List Str)
  | [], _ => []
  | cycle :: rest, seen =>
    if cycle.length < 2 then dedupAux rest seen
    else
      let key := List.intercalate [','] (normalizeCycle cycle)
      if seen.contains key then dedupAux rest seen
      else cycle :: dedupAux rest (key :: seen)

/-- deduplicateCycles: discard short cycles and collapse cycles with
equal canonical forms. -/
def deduplicateCycles (cycles : List (List Str)) : List (List Str) :=
  dedupAux cycles []

/-- findCyclesInGraph: run the search from every unvisited node; when
no cycle was emitted, fall back to the whole node list as one cycle;
deduplicate the result. -/
def findCyclesInGraph (g : Graph) (nodeNames : List Str) : List (List Str) :=
  let st := nodeNames.foldl
    (fun st node =>
      if st.visited.contains node then st
      else (dfsVisit g (nodeNames.length + 1) node [] st).1)
    ⟨[], [], []⟩
  let cycles := if st.cycles.isEmpty then [nodeNames] else st.cycles
  deduplicateCycles cycles

/-- Insertion of the ascending-by-length sort. -/
def insertByLen (c : List Str) : List (List Str) → List (List Str)
  | [] => [c]
  | d :: rest => if c.length ≤ d.length then c :: d :: rest else d :: insertByLen c rest

/-- The ascending-by-length sort of the result list.  The Go code uses
an unstable comparison sort with a length comparator; any such sort
orders the list by length, which an insertion sort models. -/
def sortByLen : List (List Str) → List (List Str)
  | [] => []
  | c :: rest => insertByLen c (sortByLen rest)

/-- The full cycle pipeline over a node sequence: full names, heuristic
graph, cycle search, sort. -/
def computeCycles (nodes : List CycleNode) : List (List Str) :=
  let nodeNames := nodes.map FullName
  let graph := buildHypotheticalGraph nodes nodeNames
  let cycles := findCyclesInGraph graph nodeNames
  sortByLen cycles

/-- FindMinimalCycles: compute the sorted deduplicated cycle list and
cache it on the record. -/
def FindMinimalCycles (tc : TfCycle) : List (List Str) × TfCycle :=
  let cycles := computeCycles tc.nodes
  (cycles, { tc with cycles := cycles })

/-- The per-cycle resource-type tally of GenerateSuggestions, as a
total counting function. -/
def resourceTypeTally (tc : TfCycle) (cycle : List Str) : Str → Nat :=
  cycle.foldl
    (fun f nodeName =>
      match GetNodeByName tc nodeName with
      | some node => fun t => if t = node.resourceType then f t + 1 else f t
      | none => f)
    (fun _ => 0)

/-- The destroy-presence scan of GenerateSuggestions. -/
def hasDestroyAction (tc : TfCycle) (cycle : List Str) : Bool :=
  cycle.any (fun nodeName =>
    match GetNodeByName tc nodeName with
    | some node =>
      node.action = NodeAction.destroy ∨ node.action = NodeAction.destroyDeposed
    | none => false)

/-- GenerateSuggestions: fixed pattern rules over the tally and the
destroy scan, with a generic fallback when no rule fired. -/
def GenerateSuggestions (tc : TfCycle) (cycle : List Str) : List Str :=
  let resourceTypes := resourceTypeTally tc cycle
  let s1 : List Str :=
    if resourceTypes "aws_security_group".data ≥ 2 then
      ["Security group cycle detected: Remove mutual references between security groups".data,
       "Use separate aws_security_group_rule resources instead of inline rules".data,
       "Consider using data sources for existing security groups".data]
    else []
  let s2 : List Str :=
    if resourceTypes "aws_iam_role".data > 0 ∧ resourceTypes "aws_iam_policy".data > 0 then
      s1 ++
      ["IAM cycle detected: Separate role creation from policy attachment".data,
       "Use aws_iam_role_policy_attachment instead of inline policies".data]
    else s1
  let s3 : List Str :=
    if hasDestroyAction tc cycle then
      s2 ++
      ["Destroy cycle detected: Add lifecycle \x7b create_before_destroy = true \x7d".data,
       "Review dependency order during resource replacement".data]
    else s2
  if s3.isEmpty then
    ["Break circular dependencies by removing direct references".data,
     "Use data sources to reference existing resources".data,
     "Consider splitting resources across multiple Terraform runs".data]
  else s3

/-!
Spec-side definitions and concrete inputs used by individual claims.
-/

/-- The spec's reading of step four of segment parsing, that the
remainder matches type dot name: the whole remainder is a non-empty
word run, a dot, a non-empty word run.  This definition follows the
spec's words, not the code, and is compared against the implemented
acceptance. -/
def isExactTypeName (r : Str) : Bool :=
  let t := r.takeWhile isWordChar
  let rest := r.dropWhile isWordChar
  match rest with
  | '.' :: r2 => ¬ t.isEmpty && ¬ r2.isEmpty && r2.all isWordChar
  | _ => false

/-- The survivors of the per-segment parse of a raw text: the nodes of
the successfully parsed segments of the located cycle capture, in order
of appearance. -/
def survivorsOf (t : Str) : List CycleNode :=
  match findCycleCapture t with
  | none => []
  | some ct => (splitResources ct).filterMap (fun s => parseResource (trimSpace s))

/-- A single-node record, exercising the single-node case of the
cycle-finding pipeline. -/
def singleNodeTc : TfCycle :=
  { nodes := [{ resourceType := "a".data, resourceName := "b".data, modulePath := [],
                instanceKey := [], action := NodeAction.normal, annotations := [],
                rawString := [] }],
    rawError := [], cycles := [] }

/-- A node carrying the destroy action inside one module. -/
def cexDestroyA : CycleNode :=
  { resourceType := "t".data, resourceName := "n1".data,
    modulePath := ["module".data, "x".data], instanceKey := [],
    action := NodeAction.destroy, annotations := [], rawString := [] }

/-- A node without a destructive action inside a sibling module. -/
def cexDestroyB : CycleNode :=
  { resourceType := "t".data, resourceName := "n2".data,
    modulePath := ["module".data, "y".data], instanceKey := [],
    action := NodeAction.normal, annotations := [], rawString := [] }

/-- A raw diagnostic whose two segments share one full identity. -/
def rawDupIdentity : Str := "Error: Cycle: a.b, a.b (destroy)".data

/-- The first parsed node of the duplicate-identity diagnostic. -/
def dupNode1 : CycleNode :=
  { resourceType := "a".data, resourceName := "b".data, modulePath := [],
    instanceKey := [], action := NodeAction.normal, annotations := [],
    rawString := "a.b".data }

/-- The second parsed node of the duplicate-identity diagnostic: same
full identity, different action and raw text. -/
def dupNode2 : CycleNode :=
  { resourceType := "a".data, resourceName := "b".data, modulePath := [],
    instanceKey := [], action := NodeAction.destroy, annotations := [],
    rawString := "a.b (destroy)".data }

/-- The record parsed from the duplicate-identity diagnostic. -/
def dupTc : TfCycle :=
  { nodes := [dupNode1, dupNode2], rawError := rawDupIdentity, cycles := [] }

/-- A raw diagnostic with one malformed middle segment. -/
def rawSkipSegment : Str := "Error: Cycle: a.b, !!!, c.d".data

/-- The node parsed from segment a dot b. -/
def nodeAB : CycleNode :=
  { resourceType := "a".data, resourceName := "b".data, modulePath := [],
    instanceKey := [], action := NodeAction.normal, annotations := [],
    rawString := "a.b".data }

/-- The node parsed from segment c dot d. -/
def nodeCD : CycleNode :=
  { resourceType := "c".data, resourceName := "d".data, modulePath := [],
    instanceKey := [], action := NodeAction.normal, annotations := [],
    rawString := "c.d".data }

/-- The record parsed from the malformed-middle-segment diagnostic:
the malformed segment is skipped. -/
def skipTc : TfCycle :=
  { nodes := [nodeAB, nodeCD], rawError := rawSkipSegment, cycles := [] }

/-- A raw diagnostic with two well-formed segments and distinct
identities. -/
def rawPair : Str := "Error: Cycle: a.b, c.d".data

/-- The record parsed from the two-segment diagnostic. -/
def pairTc : TfCycle :=
  { nodes := [nodeAB, nodeCD], rawError := rawPair, cycles := [] }

/-- A destroy-action node without a module path, for the amended
destroy-heuristic claim. -/
def wDestroyA : CycleNode :=
  { resourceType := "t".data, resourceName := "n1".data, modulePath := [],
    instanceKey := [], action := NodeAction.destroy, annotations := [],
    rawString := [] }

/-- A normal-action node without a module path, for the amended
destroy-heuristic claim. -/
def wDestroyB : CycleNode :=
  { resourceType := "u".data, resourceName := "n2".data, modulePath := [],
    instanceKey := [], action := NodeAction.normal, annotations := [],
    rawString := [] }

/-!
Claim theorems, counterexamples and witnesses, with shared helper
lemmas.
-/

/-- A fallback on emptiness with a non-empty fallback is non-empty. -/
theorem ite_isEmpty_ne_nil {α : Type} (s l : List α) (hl : l ≠ []) :
    (if s.isEmpty then l else s) ≠ [] := by
  split
  · exact hl
  · next h => simpa using h

/-- C6: top-level splitting treats commas inside parentheses as
non-separators; the input with a parenthesized comma-bearing action
yields exactly the two expected segments. -/
theorem splitResources_top_level_scan :
    splitResources ("resource.name (action, with, commas), other.resource".data) =
      ["resource.name (action, with, commas)".data, "other.resource".data] := by
  decide

/-- C9: GenerateSuggestions never fails and returns at least one
suggestion for every input cycle; when no pattern rule fires it returns
the generic fallback set. -/
theorem generateSuggestions_nonempty (tc : TfCycle) (cycle : List Str) :
    GenerateSuggestions tc cycle ≠ [] :=
  ite_isEmpty_ne_nil _ _ (by simp)

/-- C10: the cycle pipeline is deterministic and idempotent: it depends
only on the node sequence, re-running it on the cached record returns
the identical list and leaves the record unchanged, and the cache write
does not change suggestion output. -/
theorem findMinimalCycles_idempotent (tc : TfCycle) :
    (FindMinimalCycles (FindMinimalCycles tc).2).1 = (FindMinimalCycles tc).1
  ∧ (FindMinimalCycles (FindMinimalCycles tc).2).2 = (FindMinimalCycles tc).2
  ∧ (∀ cycle, GenerateSuggestions (FindMinimalCycles tc).2 cycle = GenerateSuggestions tc cycle)
  ∧ (∀ tc2 : TfCycle, tc.nodes = tc2.nodes →
      (FindMinimalCycles tc).1 = (FindMinimalCycles tc2).1) := by
  refine ⟨rfl, rfl, fun _ => rfl, fun tc2 h => ?_⟩
  simp only [FindMinimalCycles, h]

/-- Witness for C10 at two concrete records sharing a node list but
differing in raw text. -/
theorem findMinimalCycles_idempotent_witness :
    (FindMinimalCycles singleNodeTc).1 =
      (FindMinimalCycles { singleNodeTc with rawError := "x".data }).1 :=
  (findMinimalCycles_idempotent singleNodeTc).2.2.2
    { singleNodeTc with rawError := "x".data } rfl

/-- C1 counterexample: a non-empty (single-node) node set on which
FindMinimalCycles returns no cycle at all, refuting the fallback
guarantee as stated. -/
theorem findMinimalCycles_single_node_cex :
    singleNodeTc.nodes ≠ [] ∧ (FindMinimalCycles singleNodeTc).1 = [] := by
  decide

/-- C3 counterexample: an ordered pair of distinct nodes where the
first carries the destroy action and the second does not, yet the
heuristic adjacency has no edge between them, because the module-path
predicate returns early with a negative answer. -/
theorem destroy_heuristic_edge_cex :
    cexDestroyA.action = NodeAction.destroy ∧
    cexDestroyB.action ≠ NodeAction.destroy ∧
    cexDestroyA ≠ cexDestroyB ∧
    ¬ FullName cexDestroyB ∈ hypotheticalAdjacency [cexDestroyA, cexDestroyB] (FullName cexDestroyA) := by
  decide

/-- C4 counterexample: a segment whose stripped remainder does not
match type dot name as a whole, yet parses into a node, because the
implementation only searches for the pattern inside the remainder. -/
theorem parseResource_exact_match_cex :
    (parseResource ("a.b.c".data)).isSome = true ∧
    isExactTypeName (strippedRemainder ("a.b.c".data)) = false := by
  decide

/-- C5 counterexample: a successfully parsed node set containing two
nodes with the same full identity; looking the identity of the second
one up returns the first one, not that same node. -/
theorem identity_roundtrip_cex :
    ParseError rawDupIdentity = some dupTc ∧
    dupNode2 ∈ dupTc.nodes ∧
    GetNodeByName dupTc (FullName dupNode2) ≠ some dupNode2 := by
  decide

/-- C7 counterexample: two cycles that are rotations of one another
but contain their minimum twice normalize to different canonical forms
and are not collapsed by deduplication. -/
theorem normalizeCycle_rotation_cex :
    (["a".data, "b".data, "a".data, "c".data] : List Str).rotate 2 =
      ["a".data, "c".data, "a".data, "b".data] ∧
    normalizeCycle ["a".data, "b".data, "a".data, "c".data] ≠
      normalizeCycle ["a".data, "c".data, "a".data, "b".data] ∧
    deduplicateCycles
        [["a".data, "b".data, "a".data, "c".data],
         ["a".data, "c".data, "a".data, "b".data]] =
      [["a".data, "b".data, "a".data, "c".data],
       ["a".data, "c".data, "a".data, "b".data]] := by
  decide

/-- The per-segment loop appends exactly the successfully parsed
segments, in order. -/
theorem collectNodes_eq_filterMap (segs : List Str) :
    collectNodes segs = segs.filterMap (fun s => parseResource (trimSpace s)) := by
  suffices h : ∀ acc : List CycleNode,
      segs.foldl
        (fun acc s =>
          match parseResource (trimSpace s) with
          | some node => acc ++ [node]
          | none => acc)
        acc = acc ++ segs.filterMap (fun s => parseResource (trimSpace s)) by
    simpa [collectNodes] using h []
  induction segs with
  | nil => intro acc; simp
  | cons s rest ih =>
    intro acc
    simp only [List.foldl_cons, List.filterMap_cons]
    cases hp : parseResource (trimSpace s) with
    | none => simp [hp, ih]
    | some node => simp [hp, ih (acc ++ [node]), List.append_assoc]

/-- C2: ParseError fails, producing no record, exactly when the cycle
marker cannot be located or no segment parses successfully; a failing
segment is skipped, and on success the nodes are the surviving
segments' nodes in order of appearance. -/
theorem parseError_fatal_iff (t : Str) :
    (ParseError t = none ↔ (findCycleCapture t = none ∨ survivorsOf t = []))
  ∧ (∀ tc, ParseError t = some tc → tc.nodes = survivorsOf t) := by
  unfold ParseError survivorsOf
  cases hc : findCycleCapture t with
  | none => simp
  | some ct =>
    simp only [collectNodes_eq_filterMap]
    by_cases hL : (splitResources ct).filterMap (fun s => parseResource (trimSpace s)) = []
    · simp [hL]
    · constructor
      · simp [hL, List.isEmpty_iff]
      · intro tc htc
        simp only [List.isEmpty_iff, if_neg hL] at htc
        cases htc
        rfl

/-- Witness for C2: on a diagnostic with one malformed middle segment,
the parsed record's nodes are exactly the surviving segments' nodes. -/
theorem parseError_fatal_iff_witness :
    skipTc.nodes = survivorsOf rawSkipSegment :=
  (parseError_fatal_iff rawSkipSegment).2 skipTc (by decide)

/-- The dot is not a word character. -/
theorem isWordChar_dot : isWordChar '.' = false := by decide

/-- An anchored resource-pattern match forces a word character, a dot
and a word character at the start of the maximal word run boundary. -/
theorem resourceMatchAt_some_decomp {s : Str} {g : Str × Str}
    (h : resourceMatchAt s = some g) :
    ∃ pre a b post, s = pre ++ a :: '.' :: b :: post ∧
      isWordChar a = true ∧ isWordChar b = true := by
  simp only [resourceMatchAt] at h
  split at h
  · exact absurd h (by simp)
  · next ht =>
    split at h
    · next r2 heq =>
      split at h
      · exact absurd h (by simp)
      · next hn =>
        have hT : s.takeWhile isWordChar ≠ [] := by
          simpa [List.isEmpty_iff] using ht
        have hr2 : r2 ≠ [] := by
          intro he
          subst he
          simp at hn
        obtain ⟨b, r2', hb⟩ := List.exists_cons_of_ne_nil hr2
        have hbw : isWordChar b = true := by
          subst hb
          by_cases hbw : isWordChar b
          · exact hbw
          · simp [List.takeWhile_cons, hbw] at hn
        refine ⟨(s.takeWhile isWordChar).dropLast, (s.takeWhile isWordChar).getLast hT,
          b, r2', ?_, ?_, hbw⟩
        · have hs : s.takeWhile isWordChar ++ s.dropWhile isWordChar = s :=
            List.takeWhile_append_dropWhile isWordChar s
          calc s = s.takeWhile isWordChar ++ s.dropWhile isWordChar := hs.symm
            _ = ((s.takeWhile isWordChar).dropLast ++ [(s.takeWhile isWordChar).getLast hT])
                  ++ s.dropWhile isWordChar := by
                  rw [List.dropLast_append_getLast hT]
            _ = (s.takeWhile isWordChar).dropLast ++
                  (s.takeWhile isWordChar).getLast hT :: '.' :: b :: r2' := by
                  rw [heq, hb]; simp
        · have hmem : (s.takeWhile isWordChar).getLast hT ∈ s.takeWhile isWordChar :=
            List.getLast_mem hT
          exact List.mem_takeWhile_imp hmem
    · exact absurd h (by simp)

/-- Unfolding of the resource scan on a non-empty text. -/
theorem resourceFind_cons (c : Char) (rest : Str) :
    resourceFind (c :: rest) =
      match resourceMatchAt (c :: rest) with
      | some g => some g
      | none => resourceFind rest := rfl

/-- The resource pattern is found somewhere in a text exactly when the
text contains a word character, a dot and a word character in a row. -/
theorem resourceFind_isSome_iff (s : Str) :
    (resourceFind s).isSome = true ↔
      ∃ pre a b post, s = pre ++ a :: '.' :: b :: post ∧
        isWordChar a = true ∧ isWordChar b = true := by
  constructor
  · intro h
    induction s with
    | nil => simp [resourceFind] at h
    | cons c rest ih =>
      rw [resourceFind_cons] at h
      cases hm : resourceMatchAt (c :: rest) with
      | some g => exact resourceMatchAt_some_decomp hm
      | none =>
        rw [hm] at h
        obtain ⟨pre, a, b, post, hs, ha, hb⟩ := ih h
        exact ⟨c :: pre, a, b, post, by rw [List.cons_append, ← hs], ha, hb⟩
  · rintro ⟨pre, a, b, post, hs, ha, hb⟩
    subst hs
    induction pre with
    | nil =>
      rw [List.nil_append, resourceFind_cons]
      have hm : resourceMatchAt (a :: '.' :: b :: post) =
          some ([a], b :: (post.takeWhile isWordChar)) := by
        simp only [resourceMatchAt, List.takeWhile_cons, List.dropWhile_cons, ha,
          isWordChar_dot, List.takeWhile_nil]
        simp [ha, hb, List.takeWhile_cons]
      rw [hm]
      simp
    | cons c pre' ih =>
      rw [List.cons_append, resourceFind_cons]
      cases hm : resourceMatchAt (c :: (pre' ++ a :: '.' :: b :: post)) with
      | some g => rfl
      | none => exact ih

/-- parseResource succeeds exactly when the resource pattern is found
in the stripped remainder. -/
theorem parseResource_isSome_eq (s : Str) :
    (parseResource s).isSome = (resourceFind (strippedRemainder s)).isSome := by
  unfold parseResource strippedRemainder
  cases hr : resourceFind (stripModule (stripInstance (stripAction s).2.2).2).2 with
  | none => simp [hr]
  | some g => simp [hr]

/-- C4 amended: a segment parses into a node exactly when, after
stripping the action annotation, the instance-key suffix and the module
prefix, the remainder contains a substring matching type dot name, that
is a dot with a word character on each side; exact shape of the whole
remainder is not required. -/
theorem parseResource_success_iff (s : Str) :
    (parseResource s).isSome = true ↔
      ∃ pre a b post, strippedRemainder s = pre ++ a :: '.' :: b :: post ∧
        isWordChar a = true ∧ isWordChar b = true := by
  rw [parseResource_isSome_eq]
  exact resourceFind_isSome_iff (strippedRemainder s)

/-- Witness for C4 at a concrete well-formed segment. -/
theorem parseResource_success_iff_witness :
    (parseResource ("aws_instance.web".data)).isSome = true :=
  (parseResource_success_iff ("aws_instance.web".data)).mpr
    ⟨"aws_instanc".data, 'e', 'w', "eb".data, by decide, by decide, by decide⟩

/-- Finding by full name in a node list containing the node returns a
node bearing the same full name; under pairwise-distinct full names it
returns the node itself. -/
theorem find?_fullName_mem (nodes : List CycleNode) (node : CycleNode)
    (hmem : node ∈ nodes) :
    (∃ m, nodes.find? (fun n => FullName n == FullName node) = some m ∧
        FullName m = FullName node)
  ∧ ((nodes.map FullName).Nodup →
      nodes.find? (fun n => FullName n == FullName node) = some node) := by
  induction nodes with
  | nil => cases hmem
  | cons hd tl ih =>
    by_cases hp : FullName hd == FullName node
    · have hfe : FullName hd = FullName node := eq_of_beq hp
      constructor
      · exact ⟨hd, by simp [List.find?_cons, hp], hfe⟩
      · intro hnd
        rcases List.mem_cons.mp hmem with h | h
        · subst h
          simp [List.find?_cons, hp]
        · exfalso
          have hmm : FullName node ∈ tl.map FullName := List.mem_map_of_mem _ h
          rw [← hfe] at hmm
          exact (List.nodup_cons.mp (by simpa using hnd)).1 hmm
    · have hpf : (FullName hd == FullName node) = false := by
        simpa using hp
      have hne : node ≠ hd := by
        intro he
        subst he
        simp at hpf
      have hmem2 : node ∈ tl := by
        rcases List.mem_cons.mp hmem with h | h
        · exact absurd h.symm hne.symm
        · exact h
      obtain ⟨h1, h2⟩ := ih hmem2
      constructor
      · obtain ⟨m, hm, hfm⟩ := h1
        exact ⟨m, by simp [List.find?_cons, hpf, hm], hfm⟩
      · intro hnd
        have hnd2 : (tl.map FullName).Nodup := (List.nodup_cons.mp (by simpa using hnd)).2
        simp [List.find?_cons, hpf, h2 hnd2]

/-- C5 amended: for every node of a successfully parsed node set,
looking up its full identity returns the first node bearing that
identity, hence a node with the same full identity; when the set's
full identities are pairwise distinct it is that very node. -/
theorem getByFullIdentity_roundtrip (raw : Str) (tc : TfCycle)
    (_hparse : ParseError raw = some tc) (node : CycleNode) (hmem : node ∈ tc.nodes) :
    (∃ m, GetNodeByName tc (FullName node) = some m ∧ FullName m = FullName node)
  ∧ ((tc.nodes.map FullName).Nodup → GetNodeByName tc (FullName node) = some node) := by
  unfold GetNodeByName
  exact find?_fullName_mem tc.nodes node hmem

/-- Witness for C5 on a concrete parsed two-node set with distinct
identities. -/
theorem getByFullIdentity_roundtrip_witness :
    GetNodeByName pairTc (FullName nodeAB) = some nodeAB :=
  (getByFullIdentity_roundtrip rawPair pairTc (by decide) nodeAB (by decide)).2
    (by decide)

/-- Unfolding of the inner pairwise loop on a non-empty list. -/
theorem innerPairs_cons (a : CycleNode) (i j : Nat) (b : CycleNode)
    (rest : List CycleNode) (g : Graph) :
    innerPairs a i j (b :: rest) g =
      innerPairs a i (j + 1) rest
        (if i = j then g
         else if likelyDependency a b then addEdge g (FullName a) (FullName b)
         else g) := rfl

/-- Unfolding of the outer pairwise loop on a non-empty list. -/
theorem outerPairs_cons (nodes : List CycleNode) (i : Nat) (a : CycleNode)
    (rest : List CycleNode) (g : Graph) :
    outerPairs nodes i (a :: rest) g =
      outerPairs nodes (i + 1) rest (innerPairs a i 0 nodes g) := rfl

/-- Adding an edge preserves membership in every adjacency list. -/
theorem addEdge_mem_mono {g : Graph} {s t : Str} (src dst : Str) (h : t ∈ g s) :
    t ∈ addEdge g src dst s := by
  unfold addEdge
  by_cases hs : s = src
  · subst hs
    simp [h]
  · simpa [hs] using h

/-- The inner pairwise loop preserves membership. -/
theorem innerPairs_mem_mono (a : CycleNode) (i : Nat) :
    ∀ (l : List CycleNode) (j : Nat) (g : Graph) (s t : Str), t ∈ g s →
      t ∈ innerPairs a i j l g s := by
  intro l
  induction l with
  | nil => intro j g s t h; exact h
  | cons b rest ih =>
    intro j g s t h
    rw [innerPairs_cons]
    apply ih
    split
    · exact h
    · split
      · exact addEdge_mem_mono _ _ h
      · exact h

/-- The outer pairwise loop preserves membership. -/
theorem outerPairs_mem_mono (nodes : List CycleNode) :
    ∀ (l : List CycleNode) (i : Nat) (g : Graph) (s t : Str), t ∈ g s →
      t ∈ outerPairs nodes i l g s := by
  intro l
  induction l with
  | nil => intro i g s t h; exact h
  | cons a rest ih =>
    intro i g s t h
    rw [outerPairs_cons]
    exact ih _ _ _ _ (innerPairs_mem_mono a i nodes 0 g s t h)

/-- The inner pairwise loop adds the edge of a qualifying pair. -/
theorem innerPairs_mem_of (a : CycleNode) (i : Nat) :
    ∀ (l : List CycleNode) (j k : Nat) (b : CycleNode) (g : Graph),
      l[k]? = some b → i ≠ j + k → likelyDependency a b = true →
      FullName b ∈ innerPairs a i j l g (FullName a) := by
  intro l
  induction l with
  | nil => intro j k b g hk; simp at hk
  | cons x rest ih =>
    intro j k b g hk hij hl
    rw [innerPairs_cons]
    cases k with
    | zero =>
      have hxb : x = b := by simpa using hk
      subst hxb
      have hij0 : i ≠ j := by simpa using hij
      rw [if_neg hij0, if_pos hl]
      apply innerPairs_mem_mono
      unfold addEdge
      simp
    | succ k2 =>
      refine ih (j + 1) k2 b _ (by simpa using hk) ?_ hl
      omega

/-- The outer pairwise loop adds the edge of a qualifying pair. -/
theorem outerPairs_mem_of (nodes : List CycleNode) (b : CycleNode) (k : Nat)
    (hb : nodes[k]? = some b) :
    ∀ (l : List CycleNode) (i m : Nat) (a : CycleNode) (g : Graph),
      l[m]? = some a → i + m ≠ k → likelyDependency a b = true →
      FullName b ∈ outerPairs nodes i l g (FullName a) := by
  intro l
  induction l with
  | nil => intro i m a g hm; simp at hm
  | cons x rest ih =>
    intro i m a g hm hne hl
    rw [outerPairs_cons]
    cases m with
    | zero =>
      have hxa : x = a := by simpa using hm
      rw [hxa]
      apply outerPairs_mem_mono
      exact innerPairs_mem_of a i nodes 0 k b g hb (by simpa using hne) hl
    | succ m2 =>
      refine ih (i + 1) m2 a _ (by simpa using hm) ?_ hl
      omega

/-- The heuristic adjacency contains the edge of every qualifying
ordered pair at distinct positions. -/
theorem hypotheticalAdjacency_mem_of (nodes : List CycleNode) (i j : Nat)
    (a b : CycleNode) (ha : nodes[i]? = some a) (hb : nodes[j]? = some b)
    (hij : i ≠ j) (hl : likelyDependency a b = true) :
    FullName b ∈ hypotheticalAdjacency nodes (FullName a) := by
  unfold hypotheticalAdjacency
  exact outerPairs_mem_of nodes b j hb nodes 0 i a _ ha (by simpa using hij) hl

/-- The destroy predicate fires whenever it is reached: when the pair
is not both-moduled and the earlier predicates leave the decision open. -/
theorem likelyDependency_destroy (a b : CycleNode) (ha : a.action = NodeAction.destroy)
    (hb : b.action ≠ NodeAction.destroy) (hm : a.modulePath = [] ∨ b.modulePath = []) :
    likelyDependency a b = true := by
  unfold likelyDependency
  split_ifs with h1 h2 h3 h4 h5 h6
  any_goals rfl
  · exfalso
    rcases hm with h | h <;> simp [h] at h5
  · exact absurd ⟨ha, hb⟩ h6

/-- C3 amended: in the heuristic adjacency, for every ordered pair of
nodes at distinct positions, if the first carries the destroy action,
the second does not, and at least one of the two module paths is empty
(so the module-path predicate does not pre-empt the decision), then
the edge from the first to the second is present. -/
theorem destroy_heuristic_edge (nodes : List CycleNode) (i j : Nat) (a b : CycleNode)
    (hi : nodes[i]? = some a) (hj : nodes[j]? = some b) (hij : i ≠ j)
    (ha : a.action = NodeAction.destroy) (hb : b.action ≠ NodeAction.destroy)
    (hm : a.modulePath = [] ∨ b.modulePath = []) :
    FullName b ∈ hypotheticalAdjacency nodes (FullName a) :=
  hypotheticalAdjacency_mem_of nodes i j a b hi hj hij
    (likelyDependency_destroy a b ha hb hm)

/-- Witness for C3 on a concrete destroy-normal pair without module
paths. -/
theorem destroy_heuristic_edge_witness :
    FullName wDestroyB ∈ hypotheticalAdjacency [wDestroyA, wDestroyB] (FullName wDestroyA) :=
  destroy_heuristic_edge [wDestroyA, wDestroyB] 0 1 wDestroyA wDestroyB
    (by decide) (by decide) (by decide) (by decide) (by decide) (Or.inl (by decide))

/-- A string never compares strictly below itself. -/
theorem strLt_irrefl (s : Str) : strLt s s = false := by
  induction s with
  | nil => rfl
  | cons c rest ih => simp [strLt, ih]

/-- Strict string comparison is asymmetric. -/
theorem strLt_asymm : ∀ a b : Str, strLt a b = true → strLt b a = false := by
  intro a
  induction a with
  | nil =>
    intro b h
    cases b with
    | nil => simpa [strLt] using h
    | cons d bs => rfl
  | cons c as ih =>
    intro b h
    cases b with
    | nil => simp [strLt] at h
    | cons d bs =>
      simp only [strLt] at h ⊢
      by_cases hcd : c < d
      · simp [hcd, asymm hcd]
      · by_cases hdc : d < c
        · simp [hcd, hdc] at h
        · simp only [hcd, hdc, if_false] at h ⊢
          simp [hcd, hdc, ih bs h]

/-- Unfolding of the minimum-index loop on a non-empty list. -/
theorem minIndexAux_cons (c : List Str) (i : Nat) (x : Str) (l : List Str) (mi : Nat) :
    minIndexAux c i (x :: l) mi =
      minIndexAux c (i + 1) l (if strLt x (c.getD mi []) then i else mi) := rfl

/-- The minimum-index loop lands on the index of a strict global
minimum. -/
theorem minIndexAux_eq_of_min (c : List Str) (j : Nat) (hj : j < c.length)
    (hmin : ∀ i, i < c.length → i ≠ j → strLt (c.getD j []) (c.getD i []) = true) :
    ∀ (l : List Str) (i mi : Nat), c.drop i = l → mi < c.length →
      (j < i → mi = j) → (i ≤ j ∨ mi = j) →
      minIndexAux c i l mi = j := by
  intro l
  induction l with
  | nil =>
    intro i mi hdrop _ hji _
    have hlen : c.length ≤ i := by
      have hh := congrArg List.length hdrop
      simp only [List.length_drop, List.length_nil] at hh
      omega
    exact hji (lt_of_lt_of_le hj hlen)
  | cons x l2 ih =>
    intro i mi hdrop hmi hji hij
    have hi : i < c.length := by
      have hh := congrArg List.length hdrop
      simp only [List.length_drop, List.length_cons] at hh
      omega
    have hx : x = c.getD i [] := by
      have h0 : (c.drop i)[0]? = some x := by rw [hdrop]; simp
      rw [List.getElem?_drop, Nat.add_zero] at h0
      rw [List.getD_eq_getElem c [] hi]
      exact (Option.some_inj.mp ((List.getElem?_eq_getElem hi).symm.trans h0)).symm
    have hl2 : c.drop (i + 1) = l2 := by
      have hdd : (c.drop i).drop 1 = c.drop (i + 1) := by
        rw [List.drop_drop, Nat.add_comm]
      rw [← hdd, hdrop]
      rfl
    rw [minIndexAux_cons]
    by_cases hij2 : i = j
    · have hmi2 : (if strLt x (c.getD mi []) then i else mi) = j := by
        by_cases hmij : mi = j
        · rw [hmij, hx, hij2, strLt_irrefl]
          simpa using hmij
        · rw [hx, hij2, hmin mi hmi hmij]
          simpa using hij2
      rw [hmi2] at *
      exact ih (i + 1) j hl2 hj (fun _ => rfl) (Or.inr rfl)
    · by_cases hmij : mi = j
      · have hmi2 : (if strLt x (c.getD mi []) then i else mi) = j := by
          rw [hx, hmij, strLt_asymm _ _ (hmin i hi hij2)]
          simpa using hmij
        rw [hmi2]
        exact ih (i + 1) j hl2 hj (fun _ => rfl) (Or.inr rfl)
      · have hijlt : i < j := by
          rcases hij with h | h
          · omega
          · exact absurd h hmij
        refine ih (i + 1) _ hl2 ?_ ?_ ?_
        · split
          · exact hi
          · exact hmi
        · intro hcon
          omega
        · left
          omega

/-- The modular-index rebuild of a list is its rotation. -/
theorem map_range_mod_eq_rotate (c : List Str) (mi : Nat) (hmi : mi < c.length) :
    (List.range c.length).map (fun i => c.getD ((mi + i) % c.length) []) = c.rotate mi := by
  have hpos : 0 < c.length := lt_of_le_of_lt (Nat.zero_le mi) hmi
  apply List.ext_getElem
  · simp [List.length_rotate]
  · intro n h1 h2
    have hn : n < c.length := by simpa using h1
    have hmod : (mi + n) % c.length < c.length := Nat.mod_lt _ hpos
    rw [List.getElem_map, List.getElem_range, List.getD_eq_getElem c [] hmod,
      List.getElem_rotate]
    congr 1
    rw [Nat.add_comm]

/-- normalizeCycle rotates to a strict global minimum's index. -/
theorem normalizeCycle_eq_rotate (c : List Str) (j : Nat) (hj : j < c.length)
    (hmin : ∀ i, i < c.length → i ≠ j → strLt (c.getD j []) (c.getD i []) = true) :
    normalizeCycle c = c.rotate j := by
  have hpos : 0 < c.length := lt_of_le_of_lt (Nat.zero_le j) hj
  have hne : ¬ c.isEmpty = true := by
    cases c
    · simp at hpos
    · simp
  unfold normalizeCycle
  rw [if_neg hne]
  have hidx : minIndexAux c 0 c 0 = j :=
    minIndexAux_eq_of_min c j hj hmin c 0 0 rfl hpos
      (fun h => absurd h (Nat.not_lt_zero j)) (Or.inl (Nat.zero_le j))
  rw [hidx]
  exact map_range_mod_eq_rotate c j hj

/-- normalizeCycle of any rotation of a cycle with a strict global
minimum lands on the same rotation. -/
theorem normalizeCycle_rotate_eq (c : List Str) (k j : Nat) (hj : j < c.length)
    (hmin : ∀ i, i < c.length → i ≠ j → strLt (c.getD j []) (c.getD i []) = true) :
    normalizeCycle (c.rotate k) = c.rotate j := by
  have hpos : 0 < c.length := lt_of_le_of_lt (Nat.zero_le j) hj
  have hklt : k % c.length < c.length := Nat.mod_lt _ hpos
  have hj2 : (j + (c.length - k % c.length)) % c.length < c.length := Nat.mod_lt _ hpos
  have hkey : ((j + (c.length - k % c.length)) % c.length + k) % c.length = j := by
    have hk := Nat.mod_add_div k c.length
    rw [Nat.mod_add_mod]
    have heq : j + (c.length - k % c.length) + k
        = j + c.length + c.length * (k / c.length) := by
      omega
    rw [heq, Nat.add_mul_mod_self_left, Nat.add_mod_right, Nat.mod_eq_of_lt hj]
  have hrotelem : ∀ i, i < c.length →
      (c.rotate k).getD i [] = c.getD ((i + k) % c.length) [] := by
    intro i hi
    have h1 : i < (c.rotate k).length := by
      rw [List.length_rotate]
      exact hi
    rw [List.getD_eq_getElem _ [] h1, List.getD_eq_getElem c [] (Nat.mod_lt _ hpos),
      List.getElem_rotate]
  have hminrot : ∀ i, i < (c.rotate k).length →
      i ≠ (j + (c.length - k % c.length)) % c.length →
      strLt ((c.rotate k).getD ((j + (c.length - k % c.length)) % c.length) [])
        ((c.rotate k).getD i []) = true := by
    intro i hi hine
    have hi2 : i < c.length := by
      rw [List.length_rotate] at hi
      exact hi
    rw [hrotelem _ hj2, hrotelem i hi2, hkey]
    apply hmin
    · exact Nat.mod_lt _ hpos
    · intro heq
      apply hine
      have h3 : (i + k) % c.length =
          ((j + (c.length - k % c.length)) % c.length + k) % c.length := by
        rw [heq, hkey]
      have h4 : i % c.length = ((j + (c.length - k % c.length)) % c.length) % c.length :=
        Nat.ModEq.add_right_cancel' k h3
      rw [Nat.mod_eq_of_lt hi2, Nat.mod_eq_of_lt hj2] at h4
      exact h4
  have hj2r : (j + (c.length - k % c.length)) % c.length < (c.rotate k).length := by
    rw [List.length_rotate]
    exact hj2
  rw [normalizeCycle_eq_rotate (c.rotate k) _ hj2r (by
    intro i hi hine
    exact hminrot i hi hine), List.rotate_rotate]
  have hmod2 : (k + (j + (c.length - k % c.length)) % c.length) % c.length = j := by
    rw [Nat.add_comm]
    exact hkey
  rw [← List.rotate_mod, hmod2]

/-- Unfolding of the deduplication loop on a non-empty list. -/
theorem dedupAux_cons (cy : List Str) (rest : List (List Str)) (seen : List Str) :
    dedupAux (cy :: rest) seen =
      if cy.length < 2 then dedupAux rest seen
      else
        if seen.contains (List.intercalate [','] (normalizeCycle cy)) then
          dedupAux rest seen
        else cy :: dedupAux rest (List.intercalate [','] (normalizeCycle cy) :: seen) := rfl

/-- C7 amended: a cycle whose lexicographically smallest identity
occurs exactly once (it sits at an index strictly below every other
entry) normalizes, in every rotation, to the same canonical form; such
a rotation pair collapses to a single deduplicated entry; and cycles
of length less than two are discarded by deduplication. -/
theorem normalizeCycle_rotation_invariant (c : List Str) (k j : Nat)
    (hj : j < c.length)
    (hmin : ∀ i, i < c.length → i ≠ j → strLt (c.getD j []) (c.getD i []) = true) :
    normalizeCycle (c.rotate k) = normalizeCycle c
  ∧ (2 ≤ c.length → deduplicateCycles [c, c.rotate k] = [c])
  ∧ (∀ d : List Str, d.length < 2 → deduplicateCycles [d] = []) := by
  have h1 : normalizeCycle c = c.rotate j := normalizeCycle_eq_rotate c j hj hmin
  have h2 : normalizeCycle (c.rotate k) = c.rotate j :=
    normalizeCycle_rotate_eq c k j hj hmin
  have hsame : normalizeCycle (c.rotate k) = normalizeCycle c := h2.trans h1.symm
  refine ⟨hsame, ?_, ?_⟩
  · intro hlen
    have hkeq : List.intercalate [','] (normalizeCycle (c.rotate k)) =
        List.intercalate [','] (normalizeCycle c) := by rw [hsame]
    unfold deduplicateCycles
    rw [dedupAux_cons, if_neg (by omega), if_neg (by simp)]
    rw [dedupAux_cons, if_neg (by rw [List.length_rotate]; omega),
      if_pos (by rw [hkeq]; simp)]
    rfl
  · intro d hd
    unfold deduplicateCycles
    rw [dedupAux_cons, if_pos hd]
    rfl

/-- Witness for C7 on a concrete three-element cycle with a unique
minimum and its rotation by one. -/
theorem normalizeCycle_rotation_invariant_witness :
    normalizeCycle ((["b".data, "c".data, "a".data] : List Str).rotate 1) =
      normalizeCycle ["b".data, "c".data, "a".data] ∧
    deduplicateCycles
        [["b".data, "c".data, "a".data],
         (["b".data, "c".data, "a".data] : List Str).rotate 1] =
      [["b".data, "c".data, "a".data]] := by
  obtain ⟨h1, h2, _⟩ :=
    normalizeCycle_rotation_invariant ["b".data, "c".data, "a".data] 1 2
      (by decide) (by decide)
  exact ⟨h1, h2 (by decide)⟩

/-- Unfolding of length-ordered insertion on a non-empty list. -/
theorem insertByLen_cons (c d : List Str) (rest : List (List Str)) :
    insertByLen c (d :: rest) =
      if c.length ≤ d.length then c :: d :: rest else d :: insertByLen c rest := rfl

/-- Unfolding of the length sort on a non-empty list. -/
theorem sortByLen_cons (c : List Str) (rest : List (List Str)) :
    sortByLen (c :: rest) = insertByLen c (sortByLen rest) := rfl

/-- Insertion into a by-length chain keeps the chain; the new head is
the inserted element or the old head. -/
theorem insertByLen_chain (c : List Str) :
    ∀ l : List (List Str), List.Chain' (fun a b => a.length ≤ b.length) l →
      List.Chain' (fun a b => a.length ≤ b.length) (insertByLen c l) ∧
      (∀ e, (insertByLen c l).head? = some e → e = c ∨ l.head? = some e) := by
  intro l
  induction l with
  | nil =>
    intro _
    constructor
    · simp [insertByLen]
    · intro e he
      left
      exact (by simpa [insertByLen] using he : c = e).symm
  | cons d rest ih =>
    intro hch
    rw [insertByLen_cons]
    by_cases hcd : c.length ≤ d.length
    · rw [if_pos hcd]
      constructor
      · exact List.chain'_cons.mpr ⟨hcd, hch⟩
      · intro e he
        left
        exact (by simpa using he : c = e).symm
    · rw [if_neg hcd]
      have hrest : List.Chain' (fun a b => a.length ≤ b.length) rest := hch.tail
      obtain ⟨hc1, hc2⟩ := ih hrest
      constructor
      · cases hi : insertByLen c rest with
        | nil => simp
        | cons e rest2 =>
          refine List.chain'_cons.mpr ⟨?_, by rw [← hi]; exact hc1⟩
          rcases hc2 e (by rw [hi]; rfl) with he | he
          · rw [he]
            omega
          · cases rest with
            | nil => simp at he
            | cons f rest3 =>
              have hfe : f = e := by simpa using he
              rw [← hfe]
              exact (List.chain'_cons.mp hch).1
      · intro e he
        right
        simpa using he

/-- The length sort always produces a by-length chain. -/
theorem sortByLen_chain' (l : List (List Str)) :
    List.Chain' (fun a b => a.length ≤ b.length) (sortByLen l) := by
  induction l with
  | nil => simp [sortByLen]
  | cons c rest ih =>
    rw [sortByLen_cons]
    exact (insertByLen_chain c (sortByLen rest) ih).1

/-- C8: the list returned by FindMinimalCycles is sorted ascending by
cycle length: every adjacent pair of result cycles satisfies that the
earlier one's length is at most the later one's. -/
theorem findMinimalCycles_sorted (tc : TfCycle) :
    List.Chain' (fun a b => a.length ≤ b.length) (FindMinimalCycles tc).1 :=
  sortByLen_chain' _

/-- A found index is in range and its element satisfies the predicate. -/
theorem findIdx?_some_spec (p : Str → Bool) :
    ∀ (l : List Str) (i : Nat), l.findIdx? p = some i →
      i < l.length ∧ p (l.getD i []) = true := by
  intro l
  induction l with
  | nil => intro i h; simp at h
  | cons x rest ih =>
    intro i h
    rw [List.findIdx?_cons] at h
    by_cases hp : p x
    · rw [if_pos hp] at h
      have h0 : i = 0 := by simpa using h.symm
      subst h0
      simpa using hp
    · rw [if_neg hp, List.findIdx?_succ] at h
      cases hf : rest.findIdx? p with
      | none => rw [hf] at h; simp at h
      | some i2 =>
        rw [hf] at h
        have hi : i2 + 1 = i := by simpa using h
        obtain ⟨h1, h2⟩ := ih i2 hf
        subst hi
        constructor
        · simpa using h1
        · simpa using h2

/-- The last position of a path extended by one node holds that node. -/
theorem getD_append_singleton (path : List Str) (node : Str) :
    (path ++ [node]).getD path.length [] = node := by
  induction path with
  | nil => rfl
  | cons x rest ih => simpa using ih

/-- Unfolding of the neighbour loop on a non-empty list. -/
theorem neighborLoop_cons (visit : Str → DfsState → DfsState × Bool) (path : List Str)
    (nb : Str) (rest : List Str) (st : DfsState) :
    neighborLoop visit path (nb :: rest) st =
      if st.visited.contains nb then
        if st.recStack.contains nb then
          match path.findIdx? (fun x => x == nb) with
          | some i => ({ st with cycles := st.cycles ++ [path.drop i] }, true)
          | none => (st, true)
        else neighborLoop visit path rest st
      else
        if (visit nb st).2 then ((visit nb st).1, true)
        else neighborLoop visit path rest (visit nb st).1 := rfl

/-- The neighbour loop only appends cycles of length at least two, as
long as the recursive visit does and every emitted sub-path does. -/
theorem neighborLoop_inv (visit : Str → DfsState → DfsState × Bool) (path : List Str)
    (hv : ∀ nb st2, (∀ cc ∈ st2.cycles, 2 ≤ cc.length) →
        ∀ cc ∈ (visit nb st2).1.cycles, 2 ≤ cc.length) :
    ∀ (nbs : List Str),
      (∀ nb ∈ nbs, ∀ i, path.findIdx? (fun x => x == nb) = some i →
        2 ≤ (path.drop i).length) →
      ∀ (st : DfsState), (∀ cc ∈ st.cycles, 2 ≤ cc.length) →
        ∀ cc ∈ (neighborLoop visit path nbs st).1.cycles, 2 ≤ cc.length := by
  intro nbs
  induction nbs with
  | nil => intro _ st h; exact h
  | cons nb rest ih =>
    intro hemit st hP
    have hemitr : ∀ nb2 ∈ rest, ∀ i, path.findIdx? (fun x => x == nb2) = some i →
        2 ≤ (path.drop i).length :=
      fun nb2 h2 => hemit nb2 (List.mem_cons_of_mem nb h2)
    rw [neighborLoop_cons]
    by_cases h1 : st.visited.contains nb
    · rw [if_pos h1]
      by_cases h2 : st.recStack.contains nb
      · rw [if_pos h2]
        cases hf : path.findIdx? (fun x => x == nb) with
        | some i =>
          intro cc hcc
          simp only [] at hcc
          rcases List.mem_append.mp hcc with hm | hm
          · exact hP cc hm
          · have hcy : cc = path.drop i := by simpa using hm
            rw [hcy]
            exact hemit nb (List.mem_cons_self nb rest) i hf
        | none => exact hP
      · rw [if_neg h2]
        exact ih hemitr st hP
    · rw [if_neg h1]
      have hr := hv nb st hP
      by_cases h3 : (visit nb st).2
      · rw [if_pos h3]
        exact hr
      · rw [if_neg h3]
        exact ih hemitr (visit nb st).1 hr

/-- The popped-or-kept result of a visit has the cycles of the loop
result. -/
theorem ite_pop_cycles (r : DfsState × Bool) (node : Str) :
    (if r.2 then r
     else ({ r.1 with recStack := r.1.recStack.erase node }, false)).1.cycles
      = r.1.cycles := by
  by_cases h : r.2 <;> simp [h]

/-- Unfolding of one recursive visit with positive fuel. -/
theorem dfsVisit_succ (g : Graph) (fuel : Nat) (node : Str) (path : List Str)
    (st : DfsState) :
    dfsVisit g (fuel + 1) node path st =
      if (neighborLoop (fun nb st2 => dfsVisit g fuel nb (path ++ [node]) st2)
            (path ++ [node]) (g node)
            { st with visited := node :: st.visited,
                      recStack := node :: st.recStack }).2
      then neighborLoop (fun nb st2 => dfsVisit g fuel nb (path ++ [node]) st2)
            (path ++ [node]) (g node)
            { st with visited := node :: st.visited,
                      recStack := node :: st.recStack }
      else ({ (neighborLoop (fun nb st2 => dfsVisit g fuel nb (path ++ [node]) st2)
                (path ++ [node]) (g node)
                { st with visited := node :: st.visited,
                          recStack := node :: st.recStack }).1
              with recStack :=
                (neighborLoop (fun nb st2 => dfsVisit g fuel nb (path ++ [node]) st2)
                  (path ++ [node]) (g node)
                  { st with visited := node :: st.visited,
                            recStack := node :: st.recStack }).1.recStack.erase node },
            false) := rfl

/-- In a graph without self-loops, every cycle the search accumulates
has length at least two. -/
theorem dfsVisit_inv (g : Graph) (hg : ∀ s, ¬ s ∈ g s) :
    ∀ (fuel : Nat) (node : Str) (path : List Str) (st : DfsState),
      (∀ cc ∈ st.cycles, 2 ≤ cc.length) →
      ∀ cc ∈ (dfsVisit g fuel node path st).1.cycles, 2 ≤ cc.length := by
  intro fuel
  induction fuel with
  | zero => intro node path st h; exact h
  | succ fuel ih =>
    intro node path st hP
    have hemit : ∀ nb ∈ g node, ∀ i,
        (path ++ [node]).findIdx? (fun x => x == nb) = some i →
        2 ≤ ((path ++ [node]).drop i).length := by
      intro nb hnb i hf
      obtain ⟨hlt, hp⟩ := findIdx?_some_spec _ _ _ hf
      by_contra hcon
      push_neg at hcon
      have hlen : (path ++ [node]).length = path.length + 1 := by simp
      have hdlen : ((path ++ [node]).drop i).length = path.length + 1 - i := by
        rw [List.length_drop, hlen]
      have hi : i = path.length := by omega
      rw [hi, getD_append_singleton] at hp
      have hne : node = nb := eq_of_beq hp
      subst hne
      exact hg node hnb
    intro cc hcc
    rw [dfsVisit_succ, ite_pop_cycles] at hcc
    exact neighborLoop_inv (fun nb st2 => dfsVisit g fuel nb (path ++ [node]) st2)
      (path ++ [node]) (fun nb st2 h2 => ih nb (path ++ [node]) st2 h2) (g node) hemit
      { st with visited := node :: st.visited, recStack := node :: st.recStack }
      hP cc hcc

/-- The root loop of the search keeps the cycle-length bound. -/
theorem findCycles_state_inv (g : Graph) (hg : ∀ s, ¬ s ∈ g s) (nodeNames : List Str) :
    ∀ (l : List Str) (st : DfsState), (∀ cc ∈ st.cycles, 2 ≤ cc.length) →
      ∀ cc ∈ (l.foldl
          (fun st node =>
            if st.visited.contains node then st
            else (dfsVisit g (nodeNames.length + 1) node [] st).1)
          st).cycles, 2 ≤ cc.length := by
  intro l
  induction l with
  | nil => intro st h; exact h
  | cons x rest ih =>
    intro st hP
    rw [List.foldl_cons]
    apply ih
    split
    · exact hP
    · exact dfsVisit_inv g hg _ x [] st hP

/-- The empty-list deduplication result forces every input cycle to be
short or already seen. -/
theorem dedupAux_eq_nil_imp : ∀ (l : List (List Str)) (seen : List Str),
    dedupAux l seen = [] → ∀ cc ∈ l, cc.length < 2 ∨
      seen.contains (List.intercalate [','] (normalizeCycle cc)) = true := by
  intro l
  induction l with
  | nil => intro seen _ cc hcc; cases hcc
  | cons cy rest ih =>
    intro seen h cc hcc
    rw [dedupAux_cons] at h
    by_cases h1 : cy.length < 2
    · rw [if_pos h1] at h
      rcases List.mem_cons.mp hcc with heq | hcc2
      · left
        rw [heq]
        exact h1
      · exact ih seen h cc hcc2
    · rw [if_neg h1] at h
      by_cases h2 : seen.contains (List.intercalate [','] (normalizeCycle cy))
      · rw [if_pos h2] at h
        rcases List.mem_cons.mp hcc with heq | hcc2
        · right
          rw [heq]
          exact h2
        · exact ih seen h cc hcc2
      · rw [if_neg h2] at h
        exact absurd h (List.cons_ne_nil cy _)

/-- Deduplication keeps something whenever some cycle is long enough. -/
theorem dedup_result_ne_nil (cycles : List (List Str))
    (hall : ∀ cc ∈ cycles, 2 ≤ cc.length) (hne : cycles ≠ []) :
    deduplicateCycles cycles ≠ [] := by
  intro hcon
  have hchar := dedupAux_eq_nil_imp cycles [] hcon
  cases cycles with
  | nil => exact hne rfl
  | cons cy rest =>
    rcases hchar cy (List.mem_cons_self cy rest) with h | h
    · have := hall cy (List.mem_cons_self cy rest)
      omega
    · simp at h

/-- Adding an edge between distinct names keeps the graph free of
self-loops. -/
theorem addEdge_nsl (g : Graph) (hg : ∀ s, ¬ s ∈ g s) (src dst : Str)
    (hne : src ≠ dst) : ∀ s, ¬ s ∈ addEdge g src dst s := by
  intro s hs
  unfold addEdge at hs
  by_cases h : s = src
  · rw [if_pos h] at hs
    rcases List.mem_append.mp hs with h1 | h1
    · rw [h] at h1
      exact hg src h1
    · have : s = dst := by simpa using h1
      rw [h] at this
      exact hne this
  · rw [if_neg h] at hs
    exact hg s hs

/-- The inner pairwise loop keeps the adjacency free of self-loops. -/
theorem innerPairs_nsl (a : CycleNode) (i : Nat) (nodes : List CycleNode)
    (hnames : ∀ (k : Nat) (b : CycleNode), nodes[k]? = some b → i ≠ k → FullName a ≠ FullName b) :
    ∀ (l : List CycleNode) (j : Nat) (g : Graph),
      (∀ (m : Nat) (x : CycleNode), l[m]? = some x → nodes[j + m]? = some x) →
      (∀ s, ¬ s ∈ g s) → ∀ s, ¬ s ∈ innerPairs a i j l g s := by
  intro l
  induction l with
  | nil => intro j g _ hg; exact hg
  | cons b rest ih =>
    intro j g hlink hg
    rw [innerPairs_cons]
    refine ih (j + 1) _ ?_ ?_
    · intro m x hx
      have h2 := hlink (m + 1) x (by simpa using hx)
      have harith : j + (m + 1) = j + 1 + m := by omega
      rw [harith] at h2
      exact h2
    · split
      · exact hg
      · split
        · next hij hlik =>
          refine addEdge_nsl g hg _ _ ?_
          refine hnames j b ?_ hij
          have h0 := hlink 0 b (by simp)
          simpa using h0
        · exact hg

/-- The outer pairwise loop keeps the adjacency free of self-loops. -/
theorem outerPairs_nsl (nodes : List CycleNode)
    (hnd : ∀ (m k : Nat) (a b : CycleNode), nodes[m]? = some a → nodes[k]? = some b → m ≠ k →
      FullName a ≠ FullName b) :
    ∀ (l : List CycleNode) (i : Nat) (g : Graph),
      (∀ (m : Nat) (x : CycleNode), l[m]? = some x → nodes[i + m]? = some x) →
      (∀ s, ¬ s ∈ g s) → ∀ s, ¬ s ∈ outerPairs nodes i l g s := by
  intro l
  induction l with
  | nil => intro i g _ hg; exact hg
  | cons a rest ih =>
    intro i g hlink hg
    rw [outerPairs_cons]
    have ha : nodes[i]? = some a := by
      have h0 := hlink 0 a (by simp)
      simpa using h0
    refine ih (i + 1) _ ?_ ?_
    · intro m x hx
      have h2 := hlink (m + 1) x (by simpa using hx)
      have harith : i + (m + 1) = i + 1 + m := by omega
      rw [harith] at h2
      exact h2
    · refine innerPairs_nsl a i nodes ?_ nodes 0 g ?_ hg
      · intro k b hb hik
        exact hnd i k a b ha hb hik
      · intro m x hx
        simpa using hx

/-- Under pairwise-distinct full names the heuristic adjacency has no
self-loops. -/
theorem hypotheticalAdjacency_nsl (nodes : List CycleNode)
    (hnd : (nodes.map FullName).Nodup) :
    ∀ s, ¬ s ∈ hypotheticalAdjacency nodes s := by
  have hpos : ∀ (m k : Nat) (a b : CycleNode), nodes[m]? = some a → nodes[k]? = some b → m ≠ k →
      FullName a ≠ FullName b := by
    intro m k a b hm hk hmk heq
    apply hmk
    have h1 : (nodes.map FullName)[m]? = some (FullName a) := by
      simp [List.getElem?_map, hm]
    have h2 : (nodes.map FullName)[k]? = some (FullName b) := by
      simp [List.getElem?_map, hk]
    have hmlt : m < (nodes.map FullName).length := by
      by_contra hcon
      push_neg at hcon
      rw [List.getElem?_eq_none hcon] at h1
      cases h1
    apply List.getElem?_inj hmlt hnd
    rw [h1, h2, heq]
  unfold hypotheticalAdjacency
  refine outerPairs_nsl nodes hpos nodes 0 (fun _ => []) ?_ ?_
  · intro m x hx
    simpa using hx
  · intro s hs
    cases hs

/-- Unfolding of the ring-assignment loop on a non-empty list. -/
theorem seqFallbackAux_cons (nodeNames : List Str) (i : Nat) (name : Str)
    (rest : List Str) (g : Graph) :
    seqFallbackAux nodeNames i (name :: rest) g =
      seqFallbackAux nodeNames (i + 1) rest
        (fun k => if k = name
          then [nodeNames.getD ((i + 1) % nodeNames.length) []]
          else g k) := rfl

/-- The ring-assignment loop keeps the adjacency free of self-loops. -/
theorem seqFallbackAux_nsl (nodeNames : List Str)
    (hstep : ∀ (k : Nat) (x : Str), nodeNames[k]? = some x →
      x ≠ nodeNames.getD ((k + 1) % nodeNames.length) []) :
    ∀ (l : List Str) (i : Nat) (g : Graph),
      (∀ (m : Nat) (x : Str), l[m]? = some x → nodeNames[i + m]? = some x) →
      (∀ s, ¬ s ∈ g s) → ∀ s, ¬ s ∈ seqFallbackAux nodeNames i l g s := by
  intro l
  induction l with
  | nil => intro i g _ hg; exact hg
  | cons name rest ih =>
    intro i g hlink hg
    rw [seqFallbackAux_cons]
    refine ih (i + 1) _ ?_ ?_
    · intro m x hx
      have h2 := hlink (m + 1) x (by simpa using hx)
      have harith : i + (m + 1) = i + 1 + m := by omega
      rw [harith] at h2
      exact h2
    · intro s hs
      by_cases h : s = name
      · rw [if_pos h] at hs
        have hsn : s = nodeNames.getD ((i + 1) % nodeNames.length) [] := by
          simpa using hs
        have hname : nodeNames[i]? = some name := by
          have h0 := hlink 0 name (by simp)
          simpa using h0
        apply hstep i name hname
        rw [← h, ← hsn]
      · rw [if_neg h] at hs
        exact hg s hs

/-- Under distinct names with at least two nodes the ring fallback has
no self-loops. -/
theorem buildSequentialFallback_nsl (nodeNames : List Str) (hnd : nodeNames.Nodup)
    (hlen : 2 ≤ nodeNames.length) :
    ∀ s, ¬ s ∈ buildSequentialFallback nodeNames s := by
  unfold buildSequentialFallback
  refine seqFallbackAux_nsl nodeNames ?_ nodeNames 0 (fun _ => []) ?_ ?_
  · intro k x hk heq
    have hklen : k < nodeNames.length := by
      by_contra hcon
      push_neg at hcon
      rw [List.getElem?_eq_none hcon] at hk
      cases hk
    have hk2 : (k + 1) % nodeNames.length < nodeNames.length :=
      Nat.mod_lt _ (by omega)
    have hne : k ≠ (k + 1) % nodeNames.length := by
      intro hcon
      rcases Nat.lt_or_ge (k + 1) nodeNames.length with h | h
      · rw [Nat.mod_eq_of_lt h] at hcon
        omega
      · have hkk : k + 1 = nodeNames.length := by omega
        rw [hkk, Nat.mod_self] at hcon
        omega
    apply hne
    apply List.getElem?_inj hklen hnd
    rw [hk, List.getElem?_eq_getElem hk2, ← List.getD_eq_getElem nodeNames [] hk2,
      ← heq]
  · intro m x hx
    simpa using hx
  · intro s hs
    cases hs

/-- The graph chosen by buildHypotheticalGraph has no self-loops when
the full names are pairwise distinct and there are at least two nodes. -/
theorem buildHypotheticalGraph_nsl (nodes : List CycleNode)
    (hnd : (nodes.map FullName).Nodup) (hlen : 2 ≤ nodes.length) :
    ∀ s, ¬ s ∈ buildHypotheticalGraph nodes (nodes.map FullName) s := by
  unfold buildHypotheticalGraph
  split
  · exact hypotheticalAdjacency_nsl nodes hnd
  · exact buildSequentialFallback_nsl (nodes.map FullName) hnd (by simpa using hlen)

/-- Length-ordered insertion never returns the empty list. -/
theorem insertByLen_ne_nil (c : List Str) (l : List (List Str)) :
    insertByLen c l ≠ [] := by
  cases l with
  | nil => simp [insertByLen]
  | cons d rest =>
    rw [insertByLen_cons]
    split <;> simp

/-- The length sort of a non-empty list is non-empty. -/
theorem sortByLen_ne_nil (l : List (List Str)) (h : l ≠ []) :
    sortByLen l ≠ [] := by
  cases l with
  | nil => exact absurd rfl h
  | cons c rest =>
    rw [sortByLen_cons]
    exact insertByLen_ne_nil c (sortByLen rest)

/-- The cycle search over a self-loop-free graph with at least two
node names returns at least one cycle. -/
theorem findCyclesInGraph_ne_nil (g : Graph) (nodeNames : List Str)
    (hg : ∀ s, ¬ s ∈ g s) (hlen : 2 ≤ nodeNames.length) :
    findCyclesInGraph g nodeNames ≠ [] := by
  unfold findCyclesInGraph
  apply dedup_result_ne_nil
  · intro cc hcc
    split at hcc
    · have hcy : cc = nodeNames := by simpa using hcc
      rw [hcy]
      exact hlen
    · refine findCycles_state_inv g hg nodeNames nodeNames ⟨[], [], []⟩ ?_ cc hcc
      intro cc2 hcc2
      cases hcc2
  · split
    · simp
    · next h =>
      intro hcon
      rw [hcon] at h
      simp at h

/-- C1 amended: for every node set with at least two nodes whose full
identities are pairwise distinct, FindMinimalCycles returns at least
one cycle.  (A single-node set, or duplicate identities, can produce
only self-loop cycles of length one, which deduplication discards.) -/
theorem findMinimalCycles_nonempty (tc : TfCycle) (hlen : 2 ≤ tc.nodes.length)
    (hnd : (tc.nodes.map FullName).Nodup) :
    (FindMinimalCycles tc).1 ≠ [] := by
  have hg := buildHypotheticalGraph_nsl tc.nodes hnd hlen
  have hlen2 : 2 ≤ (tc.nodes.map FullName).length := by simpa using hlen
  exact sortByLen_ne_nil _
    (findCyclesInGraph_ne_nil (buildHypotheticalGraph tc.nodes (tc.nodes.map FullName))
      (tc.nodes.map FullName) hg hlen2)

/-- Witness for C1 on a concrete two-node set with distinct
identities. -/
theorem findMinimalCycles_nonempty_witness :
    (FindMinimalCycles pairTc).1 ≠ [] :=
  findMinimalCycles_nonempty pairTc (by decide) (by decide)
